import Mathlib

/-!
Verification development for the collaborative "up-to" bidding engine
(`bidcat/__init__.py`): the bid ledger, recency tracker, winner resolver,
proportional cost allocator and mutation guard.

Users and items are opaque hashable identities in the source; they are
modelled as natural numbers.  Money amounts are Python integers (ℤ); the
amounts actually stored in the ledger pass the `amount < 1` guard, so the
ledger stores naturals.

The allocation step of `get_winner` computes
`ceil(total_charge * (amount / total_bid))` with Python binary floating
point (`/` on ints yields a correctly rounded IEEE-754 double, and
`int * float` converts the int to a double and multiplies, each operation
rounding to nearest, ties to even).  That pipeline is modelled exactly on
dyadic rationals represented as an integer mantissa times a power of two:
`rn_div n d` is the double nearest to `n / d`, `rn_mul` the correctly
rounded product of two such values.  The model ignores overflow and
subnormals, which are unreachable for the magnitudes involved here; it was
cross-checked exhaustively against hardware IEEE doubles for all
`1 ≤ amount ≤ total_bid ≤ 100`, `1 ≤ total_charge ≤ total_bid`.
-/

namespace BidCat

/-! ### Binary floating point, modelled on dyadic rationals -/

/-- Fuel-based floor of `log₂ n` (the fuel is consumed once per halving, so
any fuel `≥ n` computes the true value; callers pass `n` itself). -/
def natLog2 : ℕ → ℕ → ℕ
  | 0, _ => 0
  | f + 1, n => if n < 2 then 0 else natLog2 f (n / 2) + 1

/-- Round `n / d` to the nearest integer, ties to even (`d > 0`). -/
def divRHE (n d : ℕ) : ℕ :=
  let q := n / d
  let r := n % d
  if 2 * r < d then q
  else if d < 2 * r then q + 1
  else if q % 2 = 0 then q else q + 1

/-- Floor of `log₂ (n / d)` for positive `n, d`, computed with integer
arithmetic only. -/
def qexpND (n d : ℕ) : ℤ :=
  if d ≤ n then (natLog2 (n / d) (n / d) : ℤ)
  else
    let m := d / n
    let k := natLog2 m m
    if d ≤ n * 2 ^ k then -(k : ℤ) else -(k : ℤ) - 1

/-- A dyadic value `m * 2 ^ ex`; the result type of the double model. -/
structure Dy where
  m : ℕ
  ex : ℤ
deriving DecidableEq, Repr

/-- The IEEE-754 double (53-bit significand, round to nearest, ties to
even) nearest to `n / d`, for `d > 0`.  This is what Python's `n / d`
returns on nonnegative ints. -/
def rn_div (n d : ℕ) : Dy :=
  let e : ℤ := qexpND n d
  let s : ℤ := 52 - e
  let m := if 0 ≤ s then divRHE (n * 2 ^ s.toNat) d else divRHE n (d * 2 ^ (-s).toNat)
  ⟨m, e - 52⟩

/-- Correctly rounded product of two doubles (round to nearest, ties to
even): multiply the mantissas exactly, then round back to 53 bits. -/
def rn_mul (x y : Dy) : Dy :=
  let p := x.m * y.m
  let l := natLog2 p p
  if l ≤ 52 then ⟨p, x.ex + y.ex⟩
  else ⟨divRHE p (2 ^ (l - 52)), x.ex + y.ex + (l - 52)⟩

/-- Python's `math.ceil` on a nonnegative double, which is exact. -/
def dyCeil (x : Dy) : ℤ :=
  if 0 ≤ x.ex then ((x.m * 2 ^ x.ex.toNat : ℕ) : ℤ)
  else ((x.m + 2 ^ (-x.ex).toNat - 1) / 2 ^ (-x.ex).toNat : ℕ)

/-- The provisional share of one bidder in `get_winner`:
`ceil(total_charge * (amount / total_bid))` evaluated exactly as Python
does, i.e. in double precision.  (`total_bid = 0` would raise
`ZeroDivisionError` in Python; it is unreachable, see the C10 theorem.) -/
def ceilShare (c a T : ℕ) : ℤ :=
  dyCeil (rn_mul (rn_div c 1) (rn_div a T))

/-- The same share computed over exact rationals,
`⌈total_charge * amount / total_bid⌉`, as the specification describes it. -/
def exactCeilShare (c a T : ℕ) : ℤ :=
  ((c * a + T - 1) / T : ℕ)

/-! ### The bid ledger

`Auction` is the mutable state of the Python `Auction` object:
`_itembids` (a dict from item to an `OrderedDict` from user to amount,
both in insertion order, with `move_to_end` on update) is an association
list in the same order, and `_changes_tracker` is the list of items,
least recently changed first. -/

structure Auction where
  itembids : List (ℕ × List (ℕ × ℕ))
  tracker : List ℕ
deriving DecidableEq, Repr

/-- Dictionary lookup (`d.get(k)` / `k in d` on insertion-ordered dicts). -/
def alookup {β : Type} (k : ℕ) : List (ℕ × β) → Option β
  | [] => none
  | p :: l => if p.1 = k then some p.2 else alookup k l

/-- Remove the entry for key `k`, if any (`del d[k]`; keys are unique). -/
def aerase {β : Type} (k : ℕ) : List (ℕ × β) → List (ℕ × β)
  | [] => []
  | p :: l => if p.1 = k then l else p :: aerase k l

/-- Remove the first occurrence of `x` (`list.remove(x)` with
`suppress(ValueError)`). -/
def lerase (x : ℕ) : List ℕ → List ℕ
  | [] => []
  | y :: l => if y = x then l else y :: lerase x l

/-- Position of the first occurrence of `x` (`list.index(x)`; the source
only calls it on members, where this model is exact). -/
def lindex (x : ℕ) : List ℕ → ℕ
  | [] => 0
  | y :: l => if y = x then 0 else lindex x l + 1

/-- Effect of `self._itembids[item][user] = amount` followed by
`move_to_end(user)`: drop any old entry, append the new one at the end. -/
def setUser (user amount : ℕ) (bids : List (ℕ × ℕ)) : List (ℕ × ℕ) :=
  aerase user bids ++ [(user, amount)]

/-- `_update_last_change`: move `item` to the end of the change tracker. -/
def update_last_change (item : ℕ) (tr : List ℕ) : List ℕ :=
  lerase item tr ++ [item]

/-- The ledger write at the end of `_handle_bid`: create the item's
ordered dict if missing (appending the item at the end of `_itembids`),
store the user's amount, move the user to the end, and touch the
change tracker. -/
def setBid (st : Auction) (item user amount : ℕ) : Auction :=
  if (alookup item st.itembids).isSome then
    { itembids := st.itembids.map fun p => if p.1 = item then (p.1, setUser user amount p.2) else p,
      tracker := update_last_change item st.tracker }
  else
    { itembids := st.itembids ++ [(item, setUser user amount [])],
      tracker := update_last_change item st.tracker }

/-- Sum of the amounts of an ordered bid dict (`sum(bids.values())`). -/
def bidsSum (bids : List (ℕ × ℕ)) : ℕ :=
  (bids.map Prod.snd).sum

/-- Python's `get_bids_for_user`: the items this user has bids on, with
amounts, in item insertion order. -/
def get_bids_for_user (st : Auction) (user : ℕ) : List (ℕ × ℕ) :=
  st.itembids.filterMap fun p => (alookup user p.2).map fun a => (p.1, a)

/-- Python's `get_reserved_money`: total of the user's bids. -/
def get_reserved_money (st : Auction) (user : ℕ) : ℕ :=
  bidsSum (get_bids_for_user st user)

/-- Sort key of `get_all_bids_ordered`: negated total first, then the
position in the change tracker (least recently updated first). -/
def rankKey (tr : List ℕ) (p : ℕ × List (ℕ × ℕ)) : ℤ × ℕ :=
  (-(bidsSum p.2 : ℤ), lindex p.1 tr)

/-- Lexicographic order on sort keys, as Python compares tuples. -/
def pairLe (x y : ℤ × ℕ) : Prop :=
  x.1 < y.1 ∨ (x.1 = y.1 ∧ x.2 ≤ y.2)

instance : DecidableRel pairLe := fun x y => by
  unfold pairLe; infer_instance

/-- The comparison used to rank items in `get_all_bids_ordered`. -/
def keyLe (tr : List ℕ) (x y : ℕ × List (ℕ × ℕ)) : Prop :=
  pairLe (rankKey tr x) (rankKey tr y)

instance (tr : List ℕ) : DecidableRel (keyLe tr) := fun x y => by
  unfold keyLe; infer_instance

instance (tr : List ℕ) : IsTotal (ℕ × List (ℕ × ℕ)) (keyLe tr) where
  total x y := by
    unfold keyLe pairLe
    rcases lt_trichotomy (rankKey tr x).1 (rankKey tr y).1 with h | h | h
    · exact Or.inl (Or.inl h)
    · rcases Nat.le_total (rankKey tr x).2 (rankKey tr y).2 with h2 | h2
      · exact Or.inl (Or.inr ⟨h, h2⟩)
      · exact Or.inr (Or.inr ⟨h.symm, h2⟩)
    · exact Or.inr (Or.inl h)

instance (tr : List ℕ) : IsTrans (ℕ × List (ℕ × ℕ)) (keyLe tr) where
  trans x y z := by
    unfold keyLe pairLe
    intro hxy hyz
    rcases hxy with h1 | ⟨h1, h1b⟩ <;> rcases hyz with h2 | ⟨h2, h2b⟩
    · exact Or.inl (h1.trans h2)
    · exact Or.inl (h2 ▸ h1)
    · exact Or.inl (h1 ▸ h2)
    · exact Or.inr ⟨h1.trans h2, h1b.trans h2b⟩

/-- Python's `get_all_bids_ordered`: items with their bid dicts, sorted by
total descending, ties broken by least-recent change (Python's `sorted` is
stable, and insertion sort realizes the same stable sort). -/
def get_all_bids_ordered (st : Auction) : List (ℕ × List (ℕ × ℕ)) :=
  st.itembids.insertionSort (keyLe st.tracker)

/-- The descending-by-amount, stable reordering of the winning item's
bidders used by the allocation step
(`sorted(winning_bids.items(), key=itemgetter(1), reverse=True)`). -/
def byAmountDesc (bids : List (ℕ × ℕ)) : List (ℕ × ℕ) :=
  bids.insertionSort fun x y => y.2 ≤ x.2

/-- Step 1 of the allocator: provisional ceiled shares, in the order just
described (`total_charge` is nonnegative in every state, so the ℕ view of
it is exact). -/
def provisionalOwed (tc : ℤ) (totalBid : ℕ) (bids : List (ℕ × ℕ)) : List (ℕ × ℤ) :=
  (byAmountDesc bids).map fun p => (p.1, ceilShare tc.toNat p.2 totalBid)

/-- Step 2 of the allocator: `for _ in range(k): money_owed[next(it)] -= 1`
takes one unit from each of the first `k` bidders.  (If `k` exceeded the
number of bidders Python would raise `StopIteration`; that requires at
least two floating-point inflations at once and never occurs in the
scenarios treated here.) -/
def decFirst : ℕ → List (ℕ × ℤ) → List (ℕ × ℤ)
  | 0, l => l
  | _ + 1, [] => []
  | k + 1, p :: l => (p.1, p.2 - 1) :: decFirst k l

/-- Result record of `get_winner`. -/
structure WinnerResult where
  item : ℕ
  total_bid : ℕ
  total_charge : ℤ
  money_owed : List (ℕ × ℤ)
deriving DecidableEq, Repr

/-- The second highest total: the total of the first remaining item, or 0
when the winner is uncontested (`second_bid` in `get_winner`). -/
def secondSum : List (ℕ × List (ℕ × ℕ)) → ℕ
  | [] => 0
  | (_, second_item_bids) :: _ => bidsSum second_item_bids

/-- Python's `get_winner`: rank the items, price the winner one unit above
the runner-up (capped by its own total), then allot the charge between the
winning bidders proportionally, discounting the rounding excess. -/
def get_winner (st : Auction) (discount_latter : Bool := false) : Option WinnerResult :=
  match get_all_bids_ordered st with
  | [] => none
  | (winning_item, winning_bids) :: rest =>
    let second_bid : ℕ := secondSum rest
    let total_bid := bidsSum winning_bids
    let overpaid : ℤ := max 0 ((total_bid : ℤ) - second_bid - 1)
    let total_charge : ℤ := (total_bid : ℤ) - overpaid
    let owed0 := provisionalOwed total_charge total_bid winning_bids
    let over2 : ℤ := (owed0.map Prod.snd).sum - total_charge
    let money_owed :=
      if discount_latter then (decFirst over2.toNat owed0.reverse).reverse
      else decFirst over2.toNat owed0
    some ⟨winning_item, total_bid, total_charge, money_owed⟩

/-! ### Mutations -/

/-- The exceptions `_handle_bid` can raise. -/
inductive BidErr where
  | valueError
  | alreadyBid
  | noExistingBid
  | insufficientMoney
  | visiblyLowered
deriving DecidableEq, Repr

/-- Python's `Auction._handle_bid`.  The bank's `get_available_money` is
the function argument `bank`.  A raise is modelled as returning the state
unchanged together with the error; a successful call returns the new state
and no error.  The `none` arm of the winner match is unreachable: the
visible-lowering branch requires an existing bid, so `get_winner` is
`some` there. -/
def handle_bid (bank : ℕ → ℤ) (st : Auction) (user item : ℕ) (amount : ℤ)
    (replace : Bool) (allow_visible_lowering : Bool) : Auction × Option BidErr :=
  if amount < 1 then (st, some .valueError)
  else
    let previous_bid : Option ℕ := (alookup item st.itembids).bind fun bids => alookup user bids
    let already_bid := previous_bid.isSome
    if ¬replace ∧ already_bid then (st, some .alreadyBid)
    else if replace ∧ ¬already_bid then (st, some .noExistingBid)
    else if replace ∧ previous_bid.map (Nat.cast : ℕ → ℤ) = some amount then (st, none)
    else
      let needed_money := amount - (if replace then ((previous_bid.getD 0 : ℕ) : ℤ) else 0)
      if bank user < needed_money then (st, some .insufficientMoney)
      else if replace ∧ amount < ((previous_bid.getD 0 : ℕ) : ℤ) ∧ ¬allow_visible_lowering then
        match get_winner st with
        | none => (st, some .visiblyLowered)
        | some winner =>
          if winner.item ≠ item then (st, some .visiblyLowered)
          else
            let headroom : ℤ := (winner.total_bid : ℤ) - winner.total_charge
            let decrease : ℤ := ((previous_bid.getD 0 : ℕ) : ℤ) - amount
            if headroom < decrease then (st, some .visiblyLowered)
            else (setBid st item user amount.toNat, none)
      else (setBid st item user amount.toNat, none)

/-- Python's `place_bid`. -/
def place_bid (bank : ℕ → ℤ) (st : Auction) (user item : ℕ) (amount : ℤ) :
    Auction × Option BidErr :=
  handle_bid bank st user item amount false true

/-- Python's `replace_bid`. -/
def replace_bid (bank : ℕ → ℤ) (st : Auction) (user item : ℕ) (amount : ℤ)
    (allow_visible_lowering : Bool := true) : Auction × Option BidErr :=
  handle_bid bank st user item amount true allow_visible_lowering

/-- Python's `increase_bid`: replace with the old amount plus the delta. -/
def increase_bid (bank : ℕ → ℤ) (st : Auction) (user item : ℕ) (amount : ℤ) :
    Auction × Option BidErr :=
  let previous_bid : ℕ := (((alookup item st.itembids).bind fun bids => alookup user bids).getD 0)
  replace_bid bank st user item (amount + previous_bid)

/-- Python's `remove_bid`: returns whether a bid was removed; dropping the
last bid of an item removes the item from the ledger and the tracker. -/
def remove_bid (st : Auction) (user item : ℕ) : Auction × Bool :=
  match alookup item st.itembids with
  | none => (st, false)
  | some bids =>
    match alookup user bids with
    | none => (st, false)
    | some _ =>
      let remaining := aerase user bids
      if remaining = [] then
        ({ itembids := aerase item st.itembids, tracker := lerase item st.tracker }, true)
      else
        ({ itembids := st.itembids.map fun p => if p.1 = item then (p.1, remaining) else p,
           tracker := update_last_change item st.tracker }, true)

/-- Python's `clear`: `self._itembids.clear()` — note that the change
tracker is left as it is. -/
def clear (st : Auction) : Auction :=
  { itembids := [], tracker := st.tracker }

/-! ### Reachability and well-formedness -/

/-- The ledger states reachable from a fresh auction through the public
mutation interface, with arbitrary bank answers along the way. -/
inductive Reachable : Auction → Prop where
  | empty : Reachable ⟨[], []⟩
  | place (bank st user item amount) : Reachable st →
      Reachable (place_bid bank st user item amount).1
  | replace (bank st user item amount allow) : Reachable st →
      Reachable (replace_bid bank st user item amount allow).1
  | increase (bank st user item amount) : Reachable st →
      Reachable (increase_bid bank st user item amount).1
  | remove (st user item) : Reachable st →
      Reachable (remove_bid st user item).1
  | clearStep (st) : Reachable st → Reachable (clear st)

/-- The structural invariant of reachable states: every listed item has a
nonempty bid dict of positive amounts with distinct users, items are
distinct, and every live item appears in the change tracker (the tracker
may hold stale items, because `clear` does not reset it). -/
def WF (st : Auction) : Prop :=
  (∀ p ∈ st.itembids, p.2 ≠ [] ∧ ∀ q ∈ p.2, 1 ≤ q.2) ∧
  (st.itembids.map Prod.fst).Nodup ∧
  (∀ p ∈ st.itembids, p.1 ∈ st.tracker)

instance : DecidablePred WF := fun st => by
  unfold WF; infer_instance

/-! ### List helper lemmas -/

theorem aerase_sublist {β : Type} (k : ℕ) : ∀ l : List (ℕ × β), List.Sublist (aerase k l) l
  | [] => List.Sublist.refl []
  | p :: l => by
      unfold aerase
      split
      · exact List.sublist_cons_self p l
      · exact List.Sublist.cons₂ p (aerase_sublist k l)

theorem lerase_sublist (k : ℕ) : ∀ l : List ℕ, List.Sublist (lerase k l) l
  | [] => List.Sublist.refl []
  | y :: l => by
      unfold lerase
      split
      · exact List.sublist_cons_self y l
      · exact List.Sublist.cons₂ y (lerase_sublist k l)

theorem mem_of_mem_aerase {β : Type} {k : ℕ} {q : ℕ × β} {l : List (ℕ × β)}
    (h : q ∈ aerase k l) : q ∈ l :=
  (aerase_sublist k l).mem h

theorem fst_ne_of_mem_aerase {β : Type} {k : ℕ} {q : ℕ × β} :
    ∀ {l : List (ℕ × β)}, (l.map Prod.fst).Nodup → q ∈ aerase k l → q.1 ≠ k
  | [], _, h => absurd h (List.not_mem_nil q)
  | p :: l, hnd, h => by
      unfold aerase at h
      rcases List.nodup_cons.mp hnd with ⟨hp, hl⟩
      split at h
      · rename_i hpk
        intro hq
        exact hp (hpk ▸ hq ▸ List.mem_map_of_mem Prod.fst h)
      · rcases List.mem_cons.mp h with h1 | h2
        · rename_i hpk
          exact h1 ▸ hpk
        · exact fst_ne_of_mem_aerase hl h2

theorem mem_lerase_of_ne {x k : ℕ} : ∀ {l : List ℕ}, x ≠ k → x ∈ l → x ∈ lerase k l
  | [], _, h => absurd h (List.not_mem_nil x)
  | y :: l, hne, h => by
      unfold lerase
      split
      · rename_i hyk
        rcases List.mem_cons.mp h with h1 | h2
        · exact absurd (h1.trans hyk) hne
        · exact h2
      · rcases List.mem_cons.mp h with h1 | h2
        · exact h1 ▸ List.mem_cons_self y _
        · exact List.mem_cons_of_mem y (mem_lerase_of_ne hne h2)

theorem mem_update_last_change {x i : ℕ} {l : List ℕ} (h : x ∈ l ∨ x = i) :
    x ∈ update_last_change i l := by
  unfold update_last_change
  by_cases hxi : x = i
  · exact List.mem_append_right _ (hxi ▸ List.mem_singleton_self i)
  · rcases h with h | h
    · exact List.mem_append_left _ (mem_lerase_of_ne hxi h)
    · exact absurd h hxi

theorem mem_setUser {u a : ℕ} {q : ℕ × ℕ} {bids : List (ℕ × ℕ)}
    (h : q ∈ setUser u a bids) : q ∈ bids ∨ q = (u, a) := by
  unfold setUser at h
  rcases List.mem_append.mp h with h1 | h2
  · exact Or.inl (mem_of_mem_aerase h1)
  · exact Or.inr (List.mem_singleton.mp h2)

theorem setUser_ne_nil {u a : ℕ} {bids : List (ℕ × ℕ)} : setUser u a bids ≠ [] := by
  unfold setUser
  simp

theorem fst_ne_of_alookup_eq_none {β : Type} {k : ℕ} :
    ∀ {l : List (ℕ × β)}, alookup k l = none → ∀ p ∈ l, p.1 ≠ k
  | [], _, p, hp => absurd hp (List.not_mem_nil p)
  | r :: l, h, p, hp => by
      unfold alookup at h
      split at h
      · exact absurd h (Option.some_ne_none _)
      · rcases List.mem_cons.mp hp with h1 | h2
        · rename_i hrk
          exact h1 ▸ hrk
        · exact fst_ne_of_alookup_eq_none h p h2

theorem keys_map_setUser (itembids : List (ℕ × List (ℕ × ℕ))) (i u a : ℕ) :
    ((itembids.map fun p => if p.1 = i then (p.1, setUser u a p.2) else p).map Prod.fst) =
      itembids.map Prod.fst := by
  rw [List.map_map]
  apply List.map_congr_left
  intro p _
  by_cases h : p.1 = i <;> simp [h]

theorem keys_map_entry (itembids : List (ℕ × List (ℕ × ℕ))) (i : ℕ)
    (b : List (ℕ × ℕ)) :
    ((itembids.map fun p => if p.1 = i then (p.1, b) else p).map Prod.fst) =
      itembids.map Prod.fst := by
  rw [List.map_map]
  apply List.map_congr_left
  intro p _
  by_cases h : p.1 = i <;> simp [h]

/-! ### Preservation of the invariant -/

theorem WF_setBid {st : Auction} {item user amount : ℕ} (hWF : WF st) (ha : 1 ≤ amount) :
    WF (setBid st item user amount) := by
  obtain ⟨hbids, hkeys, htrack⟩ := hWF
  unfold setBid
  split
  · refine ⟨?_, ?_, ?_⟩
    · intro p hp
      rcases List.mem_map.mp hp with ⟨p0, hp0, hp0e⟩
      by_cases h : p0.1 = item
      · rw [if_pos h] at hp0e
        refine hp0e ▸ ⟨setUser_ne_nil, ?_⟩
        intro q hq
        rcases mem_setUser hq with h1 | h2
        · exact (hbids p0 hp0).2 q h1
        · exact h2 ▸ ha
      · rw [if_neg h] at hp0e
        exact hp0e ▸ hbids p0 hp0
    · exact (keys_map_setUser st.itembids item user amount) ▸ hkeys
    · intro p hp
      rcases List.mem_map.mp hp with ⟨p0, hp0, hp0e⟩
      by_cases h : p0.1 = item
      · rw [if_pos h] at hp0e
        refine mem_update_last_change (Or.inr ?_)
        rw [← hp0e]
        exact h
      · rw [if_neg h] at hp0e
        exact mem_update_last_change (Or.inl (hp0e ▸ htrack p0 hp0))
  · rename_i hnone
    refine ⟨?_, ?_, ?_⟩
    · intro p hp
      rcases List.mem_append.mp hp with h1 | h2
      · exact hbids p h1
      · rw [List.mem_singleton.mp h2]
        refine ⟨setUser_ne_nil, ?_⟩
        intro q hq
        rcases mem_setUser hq with h1 | h2
        · exact absurd h1 (List.not_mem_nil q)
        · exact h2 ▸ ha
    · rw [List.map_append]
      apply List.Nodup.append hkeys (List.nodup_singleton item)
      intro x hx hx2
      rcases List.mem_map.mp hx with ⟨p0, hp0, hp0e⟩
      have := fst_ne_of_alookup_eq_none (Option.not_isSome_iff_eq_none.mp hnone) p0 hp0
      simp only [List.mem_singleton] at hx2
      exact this (hp0e ▸ hx2)
    · intro p hp
      rcases List.mem_append.mp hp with h1 | h2
      · exact mem_update_last_change (Or.inl (htrack p h1))
      · rw [List.mem_singleton.mp h2]
        exact mem_update_last_change (Or.inr rfl)

theorem alookup_mem {β : Type} {k : ℕ} {b : β} :
    ∀ {l : List (ℕ × β)}, alookup k l = some b → (k, b) ∈ l
  | [], h => absurd h (Option.noConfusion)
  | p :: l, h => by
      unfold alookup at h
      split at h
      · rename_i hpk
        have hb : p.2 = b := Option.some_inj.mp h
        rw [← hpk, ← hb, Prod.mk.eta]
        exact List.mem_cons_self p l
      · exact List.mem_cons_of_mem p (alookup_mem h)

theorem WF_handle_bid (bank : ℕ → ℤ) (st : Auction) (user item : ℕ) (amount : ℤ)
    (replace allow : Bool) (hWF : WF st) :
    WF (handle_bid bank st user item amount replace allow).1 := by
  simp only [handle_bid]
  split
  · exact hWF
  · rename_i hamount
    have ha : 1 ≤ amount.toNat := by omega
    repeat' split
    all_goals first
      | exact hWF
      | exact WF_setBid hWF ha

theorem WF_remove_bid (st : Auction) (user item : ℕ) (hWF : WF st) :
    WF (remove_bid st user item).1 := by
  obtain ⟨hbids, hkeys, htrack⟩ := hWF
  simp only [remove_bid]
  split
  · exact ⟨hbids, hkeys, htrack⟩
  · rename_i bids hitem
    split
    · exact ⟨hbids, hkeys, htrack⟩
    · split
      · refine ⟨?_, ?_, ?_⟩
        · intro p hp
          exact hbids p (mem_of_mem_aerase hp)
        · exact ((aerase_sublist item st.itembids).map Prod.fst).nodup hkeys
        · intro p hp
          have hne := fst_ne_of_mem_aerase hkeys hp
          exact mem_lerase_of_ne hne (htrack p (mem_of_mem_aerase hp))
      · rename_i hrem
        have hmem : (item, bids) ∈ st.itembids := alookup_mem hitem
        refine ⟨?_, ?_, ?_⟩
        · intro p hp
          rcases List.mem_map.mp hp with ⟨p0, hp0, hp0e⟩
          by_cases h : p0.1 = item
          · rw [if_pos h] at hp0e
            refine hp0e ▸ ⟨hrem, ?_⟩
            intro q hq
            exact (hbids (item, bids) hmem).2 q (mem_of_mem_aerase hq)
          · rw [if_neg h] at hp0e
            exact hp0e ▸ hbids p0 hp0
        · exact (keys_map_entry st.itembids item _) ▸ hkeys
        · intro p hp
          rcases List.mem_map.mp hp with ⟨p0, hp0, hp0e⟩
          by_cases h : p0.1 = item
          · rw [if_pos h] at hp0e
            refine mem_update_last_change (Or.inr ?_)
            rw [← hp0e]
            exact h
          · rw [if_neg h] at hp0e
            exact mem_update_last_change (Or.inl (hp0e ▸ htrack p0 hp0))

theorem WF_clear (st : Auction) : WF (clear st) := by
  refine ⟨?_, ?_, ?_⟩ <;> simp [clear]

theorem WF_of_Reachable {st : Auction} (h : Reachable st) : WF st := by
  induction h with
  | empty => exact ⟨by simp, by simp, by simp⟩
  | place bank st user item amount _ ih => exact WF_handle_bid bank st user item amount false true ih
  | replace bank st user item amount allow _ ih =>
      exact WF_handle_bid bank st user item amount true allow ih
  | increase bank st user item amount _ ih =>
      exact WF_handle_bid bank st user item _ true true ih
  | remove st user item _ ih => exact WF_remove_bid st user item ih
  | clearStep st _ _ => exact WF_clear st

/-! ### Bounds for the floating-point model -/

theorem natLog2_le : ∀ {f n : ℕ}, 1 ≤ n → n ≤ f → 2 ^ natLog2 f n ≤ n
  | 0, n, h1, h2 => by omega
  | f + 1, n, h1, h2 => by
      unfold natLog2
      split
      · simpa using h1
      · rename_i hn
        have ih := natLog2_le (f := f) (n := n / 2) (by omega) (by omega)
        calc 2 ^ (natLog2 f (n / 2) + 1) = 2 ^ natLog2 f (n / 2) * 2 := by rw [pow_succ]
          _ ≤ n / 2 * 2 := by omega
          _ ≤ n := by omega

theorem natLog2_lt : ∀ {f n : ℕ}, n ≤ f → n < 2 ^ (natLog2 f n + 1)
  | 0, n, h2 => by
      unfold natLog2
      omega
  | f + 1, n, h2 => by
      unfold natLog2
      split
      · rename_i hn
        simpa using hn
      · rename_i hn
        have ih := natLog2_lt (f := f) (n := n / 2) (by omega)
        have hstep : 2 ^ (natLog2 f (n / 2) + 1 + 1) = 2 ^ (natLog2 f (n / 2) + 1) * 2 :=
          pow_succ 2 _
        omega

theorem qexpND_spec {n d : ℕ} (hn : 1 ≤ n) (hd : 1 ≤ d) :
    d * 2 ^ (qexpND n d).toNat ≤ n * 2 ^ (-(qexpND n d)).toNat := by
  simp only [qexpND]
  split
  · rename_i hdn
    have hm : 1 ≤ n / d := (Nat.one_le_div_iff hd).mpr hdn
    have hlog := natLog2_le hm (le_refl (n / d))
    rw [show (-(natLog2 (n / d) (n / d) : ℤ)).toNat = 0 by omega, pow_zero, mul_one,
      Int.toNat_natCast]
    calc d * 2 ^ natLog2 (n / d) (n / d) ≤ d * (n / d) := Nat.mul_le_mul_left d hlog
      _ ≤ n := Nat.mul_div_le n d
  · rename_i hdn
    split
    · rename_i hcond
      rw [show (-(natLog2 (d / n) (d / n) : ℤ)).toNat = 0 by omega, pow_zero, mul_one,
        show (- -(natLog2 (d / n) (d / n) : ℤ)).toNat = natLog2 (d / n) (d / n) by omega]
      exact hcond
    · rename_i hcond
      have hlt := natLog2_lt (f := d / n) (n := d / n) (le_refl _)
      rw [show (-(natLog2 (d / n) (d / n) : ℤ) - 1).toNat = 0 by omega, pow_zero, mul_one,
        show (-(-(natLog2 (d / n) (d / n) : ℤ) - 1)).toNat = natLog2 (d / n) (d / n) + 1 by omega]
      have hdn2 : d < n * (d / n + 1) := by
        have h1 := Nat.div_add_mod d n
        have h2 : d % n < n := Nat.mod_lt d (by omega)
        calc d = n * (d / n) + d % n := h1.symm
          _ < n * (d / n) + n := Nat.add_lt_add_left h2 _
          _ = n * (d / n + 1) := (Nat.mul_succ n _).symm
      calc d ≤ n * (d / n + 1) := le_of_lt hdn2
        _ ≤ n * 2 ^ (natLog2 (d / n) (d / n) + 1) := Nat.mul_le_mul_left n (by omega)

theorem divRHE_pos {n d : ℕ} (hd : 1 ≤ d) (h : d ≤ n) : 1 ≤ divRHE n d := by
  simp only [divRHE]
  have hq : 1 ≤ n / d := (Nat.one_le_div_iff hd).mpr h
  split
  · exact hq
  · split
    · exact Nat.le_succ_of_le hq
    · split
      · exact hq
      · exact Nat.le_succ_of_le hq

theorem rn_div_m_pos {n d : ℕ} (hn : 1 ≤ n) (hd : 1 ≤ d) : 1 ≤ (rn_div n d).m := by
  have hspec := qexpND_spec hn hd
  simp only [rn_div]
  split
  · rename_i hs
    apply divRHE_pos hd
    rcases le_or_lt 0 (qexpND n d) with hpos | hneg
    · have h1 : d ≤ d * 2 ^ (qexpND n d).toNat := Nat.le_mul_of_pos_right d (Nat.pos_pow_of_pos _ (by omega))
      have h2 : n * 2 ^ (-(qexpND n d)).toNat = n := by
        rw [Int.toNat_eq_zero.mpr (by omega), pow_zero, mul_one]
      have h3 : n ≤ n * 2 ^ (52 - qexpND n d).toNat := Nat.le_mul_of_pos_right n (Nat.pos_pow_of_pos _ (by omega))
      omega
    · have h1 : d * 2 ^ (qexpND n d).toNat = d := by
        rw [Int.toNat_eq_zero.mpr (by omega), pow_zero, mul_one]
      have h2 : 2 ^ (-(qexpND n d)).toNat ≤ 2 ^ (52 - qexpND n d).toNat :=
        Nat.pow_le_pow_right (by omega) (by omega)
      have h3 : n * 2 ^ (-(qexpND n d)).toNat ≤ n * 2 ^ (52 - qexpND n d).toNat :=
        Nat.mul_le_mul_left n h2
      omega
  · rename_i hs
    apply divRHE_pos (Nat.one_le_iff_ne_zero.mpr (Nat.mul_ne_zero (by omega) (Nat.pos_iff_ne_zero.mp (Nat.pos_pow_of_pos _ (by omega)))))
    have hpos : 0 ≤ qexpND n d := by omega
    have h1 : (-(qexpND n d)).toNat = 0 := Int.toNat_eq_zero.mpr (by omega)
    rw [h1, pow_zero, mul_one] at hspec
    have h2 : 2 ^ (-(52 - qexpND n d)).toNat ≤ 2 ^ (qexpND n d).toNat :=
      Nat.pow_le_pow_right (by omega) (by omega)
    calc d * 2 ^ (-(52 - qexpND n d)).toNat ≤ d * 2 ^ (qexpND n d).toNat :=
        Nat.mul_le_mul_left d h2
      _ ≤ n := hspec

theorem rn_mul_m_pos {x y : Dy} (hx : 1 ≤ x.m) (hy : 1 ≤ y.m) : 1 ≤ (rn_mul x y).m := by
  have hp : 1 ≤ x.m * y.m := Nat.one_le_iff_ne_zero.mpr (Nat.mul_ne_zero (by omega) (by omega))
  simp only [rn_mul]
  split
  · exact hp
  · rename_i hl
    have hlog := natLog2_le hp (le_refl (x.m * y.m))
    apply divRHE_pos (Nat.pos_pow_of_pos _ (by omega))
    calc 2 ^ (natLog2 (x.m * y.m) (x.m * y.m) - 52) ≤ 2 ^ natLog2 (x.m * y.m) (x.m * y.m) :=
        Nat.pow_le_pow_right (by omega) (by omega)
      _ ≤ x.m * y.m := hlog

theorem dyCeil_pos {x : Dy} (hx : 1 ≤ x.m) : 1 ≤ dyCeil x := by
  simp only [dyCeil]
  split
  · have h : 1 ≤ x.m * 2 ^ x.ex.toNat :=
      Nat.one_le_iff_ne_zero.mpr (Nat.mul_ne_zero (by omega) (Nat.pos_iff_ne_zero.mp (Nat.pos_pow_of_pos _ (by omega))))
    exact_mod_cast h
  · have h2 : 1 ≤ 2 ^ (-x.ex).toNat := Nat.one_le_two_pow
    have h : 1 ≤ (x.m + 2 ^ (-x.ex).toNat - 1) / 2 ^ (-x.ex).toNat :=
      (Nat.one_le_div_iff (by omega)).mpr (by omega)
    exact_mod_cast h

theorem ceilShare_pos {c a T : ℕ} (hc : 1 ≤ c) (ha : 1 ≤ a) (hT : 1 ≤ T) :
    1 ≤ ceilShare c a T :=
  dyCeil_pos (rn_mul_m_pos (rn_div_m_pos hc (le_refl 1)) (rn_div_m_pos ha hT))

theorem bidsSum_pos {bids : List (ℕ × ℕ)} (hne : bids ≠ []) (h : ∀ q ∈ bids, 1 ≤ q.2) :
    1 ≤ bidsSum bids := by
  cases bids with
  | nil => exact absurd rfl hne
  | cons p l =>
      have hp := h p (List.mem_cons_self p l)
      unfold bidsSum
      simp only [List.map_cons, List.sum_cons]
      omega

/-! ### Characterizations of the winner resolver -/

theorem get_winner_fields {st : Auction} {wi : ℕ} {wb : List (ℕ × ℕ)}
    {rest : List (ℕ × List (ℕ × ℕ))} (h : get_all_bids_ordered st = (wi, wb) :: rest) :
    ∃ w, get_winner st = some w ∧ w.item = wi ∧ w.total_bid = bidsSum wb ∧
      w.total_charge = (bidsSum wb : ℤ) - max 0 ((bidsSum wb : ℤ) - secondSum rest - 1) := by
  simp only [get_winner, h]
  exact ⟨_, rfl, rfl, rfl, rfl⟩

theorem mem_itembids_of_ordered_head {st : Auction} {wi : ℕ} {wb : List (ℕ × ℕ)}
    {rest : List (ℕ × List (ℕ × ℕ))} (h : get_all_bids_ordered st = (wi, wb) :: rest) :
    (wi, wb) ∈ st.itembids := by
  have hperm := List.perm_insertionSort (keyLe st.tracker) st.itembids
  have hmem : (wi, wb) ∈ get_all_bids_ordered st := by
    rw [h]
    exact List.mem_cons_self _ _
  exact hperm.mem_iff.mp hmem

theorem mem_of_mem_byAmountDesc {p : ℕ × ℕ} {bids : List (ℕ × ℕ)}
    (h : p ∈ byAmountDesc bids) : p ∈ bids :=
  (List.perm_insertionSort _ bids).mem_iff.mp h

/-! ### Atomicity of rejected mutations -/

theorem handle_bid_error_id (bank : ℕ → ℤ) (st : Auction) (user item : ℕ) (amount : ℤ)
    (replace allow : Bool) :
    (handle_bid bank st user item amount replace allow).2 ≠ none →
    (handle_bid bank st user item amount replace allow).1 = st := by
  simp only [handle_bid]
  repeat' split
  all_goals intro h
  all_goals first
    | rfl
    | exact absurd rfl h

/-! ### The visible-lowering guard -/

theorem handle_bid_lowering (bank : ℕ → ℤ) (st : Auction) (user item : ℕ)
    (amount : ℤ) (prev : ℕ) (w : WinnerResult)
    (hprev : ((alookup item st.itembids).bind fun bids => alookup user bids) = some prev)
    (h1 : 1 ≤ amount) (hlow : amount < (prev : ℤ))
    (hfunds : amount - (prev : ℤ) ≤ bank user)
    (hwin : get_winner st = some w) :
    handle_bid bank st user item amount true false =
      (if w.item ≠ item then (st, some .visiblyLowered)
       else if (w.total_bid : ℤ) - w.total_charge < (prev : ℤ) - amount then
         (st, some .visiblyLowered)
       else (setBid st item user amount.toNat, none)) := by
  simp only [handle_bid, hprev, Option.isSome_some, Option.getD_some, Option.map_some',
    eq_self_iff_true, if_true]
  rw [if_neg (by omega)]
  rw [if_neg (by simp)]
  rw [if_neg (by simp)]
  rw [if_neg (by simp only [true_and, Option.some.injEq]; intro hc; omega)]
  rw [if_neg (by omega)]
  rw [if_pos (by refine ⟨trivial, hlow, by simp⟩)]
  rw [hwin]

/-! ### Concrete reachable states used by the witnesses -/

theorem reach_single10 : Reachable ⟨[(0, [(0, 10)])], [0]⟩ := by
  have h1 := Reachable.place (fun _ => (50000 : ℤ)) _ 0 0 10 Reachable.empty
  rw [show (place_bid (fun _ => (50000 : ℤ)) ⟨[], []⟩ 0 0 10).1 = ⟨[(0, [(0, 10)])], [0]⟩ from by
    decide] at h1
  exact h1

theorem reach_single1 : Reachable ⟨[(0, [(0, 1)])], [0]⟩ := by
  have h1 := Reachable.place (fun _ => (50000 : ℤ)) _ 0 0 1 Reachable.empty
  rw [show (place_bid (fun _ => (50000 : ℤ)) ⟨[], []⟩ 0 0 1).1 = ⟨[(0, [(0, 1)])], [0]⟩ from by
    decide] at h1
  exact h1

theorem reach_pair_1_10 : Reachable ⟨[(0, [(0, 1)]), (1, [(1, 10)])], [0, 1]⟩ := by
  have h1 := Reachable.place (fun _ => (50000 : ℤ)) _ 0 0 1 Reachable.empty
  rw [show (place_bid (fun _ => (50000 : ℤ)) ⟨[], []⟩ 0 0 1).1 = ⟨[(0, [(0, 1)])], [0]⟩ from by
    decide] at h1
  have h2 := Reachable.place (fun _ => (50000 : ℤ)) _ 1 1 10 h1
  rw [show (place_bid (fun _ => (50000 : ℤ)) ⟨[(0, [(0, 1)])], [0]⟩ 1 1 10).1 =
      ⟨[(0, [(0, 1)]), (1, [(1, 10)])], [0, 1]⟩ from by decide] at h2
  exact h2

theorem reach_pair_5_2 : Reachable ⟨[(0, [(0, 5)]), (1, [(1, 2)])], [0, 1]⟩ := by
  have h1 := Reachable.place (fun _ => (50000 : ℤ)) _ 0 0 5 Reachable.empty
  rw [show (place_bid (fun _ => (50000 : ℤ)) ⟨[], []⟩ 0 0 5).1 = ⟨[(0, [(0, 5)])], [0]⟩ from by
    decide] at h1
  have h2 := Reachable.place (fun _ => (50000 : ℤ)) _ 1 1 2 h1
  rw [show (place_bid (fun _ => (50000 : ℤ)) ⟨[(0, [(0, 5)])], [0]⟩ 1 1 2).1 =
      ⟨[(0, [(0, 5)]), (1, [(1, 2)])], [0, 1]⟩ from by decide] at h2
  exact h2

theorem reach_pair_3_3 : Reachable ⟨[(0, [(0, 3)]), (1, [(1, 3)])], [0, 1]⟩ := by
  have h1 := Reachable.place (fun _ => (50000 : ℤ)) _ 0 0 3 Reachable.empty
  rw [show (place_bid (fun _ => (50000 : ℤ)) ⟨[], []⟩ 0 0 3).1 = ⟨[(0, [(0, 3)])], [0]⟩ from by
    decide] at h1
  have h2 := Reachable.place (fun _ => (50000 : ℤ)) _ 1 1 3 h1
  rw [show (place_bid (fun _ => (50000 : ℤ)) ⟨[(0, [(0, 3)])], [0]⟩ 1 1 3).1 =
      ⟨[(0, [(0, 3)]), (1, [(1, 3)])], [0, 1]⟩ from by decide] at h2
  exact h2

theorem reach_float_state : Reachable ⟨[(0, [(0, 7), (1, 18)]), (1, [(2, 24)])], [0, 1]⟩ := by
  have h1 := Reachable.place (fun _ => (50000 : ℤ)) _ 0 0 7 Reachable.empty
  rw [show (place_bid (fun _ => (50000 : ℤ)) ⟨[], []⟩ 0 0 7).1 = ⟨[(0, [(0, 7)])], [0]⟩ from by
    decide] at h1
  have h2 := Reachable.place (fun _ => (50000 : ℤ)) _ 1 0 18 h1
  rw [show (place_bid (fun _ => (50000 : ℤ)) ⟨[(0, [(0, 7)])], [0]⟩ 1 0 18).1 =
      ⟨[(0, [(0, 7), (1, 18)])], [0]⟩ from by decide] at h2
  have h3 := Reachable.place (fun _ => (50000 : ℤ)) _ 2 1 24 h2
  rw [show (place_bid (fun _ => (50000 : ℤ)) ⟨[(0, [(0, 7), (1, 18)])], [0]⟩ 2 1 24).1 =
      ⟨[(0, [(0, 7), (1, 18)]), (1, [(2, 24)])], [0, 1]⟩ from by decide] at h3
  exact h3

/-! ### The claims -/

set_option maxRecDepth 100000 in
/-- C1: the claimed invariant fails — the code can charge a bidder more
than they pledged.  In the reachable ledger where user 0 pledged 7 and
user 1 pledged 18 on item 0 while user 2 pledged 24 on item 1, the winner
is item 0 with `total_bid = total_charge = 25`, and user 0 is billed 8
even though they pledged only 7: Python evaluates
`ceil(25 * (7/25))` in double precision as `ceil(7.000000000000001) = 8`.
The invariant `money_owed[bidder] ≤ amount_pledged[bidder]` is therefore
violated at this state. -/
theorem C1_charge_exceeds_pledge :
    Reachable ⟨[(0, [(0, 7), (1, 18)]), (1, [(2, 24)])], [0, 1]⟩ ∧
    get_winner ⟨[(0, [(0, 7), (1, 18)]), (1, [(2, 24)])], [0, 1]⟩ =
      some ⟨0, 25, 25, [(1, 17), (0, 8)]⟩ ∧
    alookup 0 [(0, 7), (1, 18)] = some 7 ∧ ¬((8 : ℤ) ≤ 7) :=
  ⟨reach_float_state, by decide, by decide, by decide⟩

set_option maxRecDepth 100000 in
/-- C2 counterexample: in the reachable ledger with the single pledge of
10 by user 0 on item 0, `get_winner` returns `total_charge = 1`, not
`total_charge = total_bid = 10` as the claim states. -/
theorem C2_counterexample :
    Reachable ⟨[(0, [(0, 10)])], [0]⟩ ∧
    (get_winner ⟨[(0, [(0, 10)])], [0]⟩).map (fun w => (w.total_charge, w.total_bid)) =
      some (1, 10) ∧ (1 : ℤ) ≠ (10 : ℤ) :=
  ⟨reach_single10, by decide, by decide⟩

/-- C2 (amended): in every reachable ledger state in which exactly one
item has live pledges, `get_winner` returns
`total_charge = min(total_bid, 0 + 1) = 1` — the uncontested winner pays a
single unit, not its full pledged total. -/
theorem C2_uncontested_charge (st : Auction) (i : ℕ) (b : List (ℕ × ℕ))
    (hR : Reachable st) (h : st.itembids = [(i, b)]) :
    (get_winner st).map (fun w => w.total_charge) = some 1 := by
  have hWF := WF_of_Reachable hR
  have hb := hWF.1 (i, b) (by rw [h]; exact List.mem_cons_self _ _)
  have hT : 1 ≤ bidsSum b := bidsSum_pos hb.1 hb.2
  have hord : get_all_bids_ordered st = [(i, b)] := by
    simp [get_all_bids_ordered, h]
  obtain ⟨w, hw, hwi, hwT, hwc⟩ := get_winner_fields hord
  rw [hw, Option.map_some']
  rw [hwc]
  simp only [secondSum]
  congr 1
  omega

/-- C2 witness: the amended claim applied to the single-pledge ledger
(user 0 pledged 10 on item 0). -/
theorem C2_witness :
    (get_winner ⟨[(0, [(0, 10)])], [0]⟩).map (fun w => w.total_charge) = some 1 := by
  have h1 := Reachable.place (fun _ => (50000 : ℤ)) _ 0 0 10 Reachable.empty
  rw [show (place_bid (fun _ => (50000 : ℤ)) ⟨[], []⟩ 0 0 10).1 = ⟨[(0, [(0, 10)])], [0]⟩ from by
    decide] at h1
  exact C2_uncontested_charge _ 0 [(0, 10)] h1 rfl

/-- C3: in every reachable ledger state whose ranking has at least two
items, the winner's `total_charge` is `min(total_bid, second_bid + 1)`,
where `second_bid` is the total of the next-ranked item. -/
theorem C3_second_price (st : Auction) (wi si : ℕ) (wb sb : List (ℕ × ℕ))
    (rest : List (ℕ × List (ℕ × ℕ))) (hR : Reachable st)
    (h : get_all_bids_ordered st = (wi, wb) :: (si, sb) :: rest) :
    (get_winner st).map (fun w => w.total_charge) =
      some (min (bidsSum wb : ℤ) ((bidsSum sb : ℤ) + 1)) := by
  obtain ⟨w, hw, hwi, hwT, hwc⟩ := get_winner_fields h
  rw [hw, Option.map_some']
  rw [hwc]
  simp only [secondSum]
  congr 1
  omega

set_option maxRecDepth 100000 in
/-- C3 witness: user 0 pledged 1 on item 0, user 1 pledged 10 on item 1;
the winner is item 1 and the charge is `min(10, 1 + 1) = 2`. -/
theorem C3_witness :
    (get_winner ⟨[(0, [(0, 1)]), (1, [(1, 10)])], [0, 1]⟩).map (fun w => w.total_charge) =
      some 2 := by
  have h := C3_second_price ⟨[(0, [(0, 1)]), (1, [(1, 10)])], [0, 1]⟩ 1 0 [(1, 10)] [(0, 1)] []
    reach_pair_1_10 (by decide)
  simpa using h

/-- C4: with the visible-lowering guard active, lowering an existing
pledge `prev` to `amount` on the item that is currently winning succeeds
exactly when the decrease is at most the headroom
`total_bid - total_charge` reported by `get_winner` at that moment, and
raises `VisiblyLoweredError` when the decrease exceeds it (the amount and
funds checks being satisfied). -/
theorem C4_lowering_headroom_guard (bank : ℕ → ℤ) (st : Auction) (user item : ℕ)
    (amount : ℤ) (prev : ℕ) (w : WinnerResult)
    (hprev : ((alookup item st.itembids).bind fun bids => alookup user bids) = some prev)
    (h1 : 1 ≤ amount) (hlow : amount < (prev : ℤ))
    (hfunds : amount - (prev : ℤ) ≤ bank user)
    (hwin : get_winner st = some w) (hitem : w.item = item) :
    ((prev : ℤ) - amount ≤ (w.total_bid : ℤ) - w.total_charge →
      (replace_bid bank st user item amount false).2 = none) ∧
    ((w.total_bid : ℤ) - w.total_charge < (prev : ℤ) - amount →
      (replace_bid bank st user item amount false).2 = some .visiblyLowered) := by
  have hmain := handle_bid_lowering bank st user item amount prev w hprev h1 hlow hfunds hwin
  constructor
  · intro hle
    show (handle_bid bank st user item amount true false).2 = none
    rw [hmain, if_neg (by simp [hitem]), if_neg (by omega)]
  · intro hgt
    show (handle_bid bank st user item amount true false).2 = some .visiblyLowered
    rw [hmain, if_neg (by simp [hitem]), if_pos hgt]

set_option maxRecDepth 100000 in
/-- C4 witness: item 0 wins with `total_bid = 5`, `total_charge = 3`
(headroom 2); its bidder may lower 5 → 3 (decrease 2) but lowering
5 → 1 (decrease 4) raises `VisiblyLoweredError`. -/
theorem C4_witness :
    (replace_bid (fun _ => (50000 : ℤ)) ⟨[(0, [(0, 5)]), (1, [(1, 2)])], [0, 1]⟩ 0 0 3 false).2 =
      none ∧
    (replace_bid (fun _ => (50000 : ℤ)) ⟨[(0, [(0, 5)]), (1, [(1, 2)])], [0, 1]⟩ 0 0 1 false).2 =
      some .visiblyLowered := by
  constructor
  · exact (C4_lowering_headroom_guard (fun _ => (50000 : ℤ)) _ 0 0 3 5 ⟨0, 5, 3, [(0, 3)]⟩
      (by decide) (by decide) (by decide) (by decide) (by decide) rfl).1 (by decide)
  · exact (C4_lowering_headroom_guard (fun _ => (50000 : ℤ)) _ 0 0 1 5 ⟨0, 5, 3, [(0, 3)]⟩
      (by decide) (by decide) (by decide) (by decide) (by decide) rfl).2 (by decide)

set_option maxRecDepth 100000 in
/-- C5 counterexample: the claim says lowering a pledge on an item that is
not currently winning always succeeds, but the code raises
`VisiblyLoweredError`: in the reachable ledger where item 0 wins (5 vs 2),
user 1 lowering their pledge on the losing item 1 from 2 to 1 is rejected
even though the amount and funds checks pass. -/
theorem C5_counterexample :
    Reachable ⟨[(0, [(0, 5)]), (1, [(1, 2)])], [0, 1]⟩ ∧
    (replace_bid (fun _ => (50000 : ℤ)) ⟨[(0, [(0, 5)]), (1, [(1, 2)])], [0, 1]⟩ 1 1 1 false).2 =
      some .visiblyLowered :=
  ⟨reach_pair_5_2, by decide⟩

/-- C5 (amended): with the guard active, lowering an existing pledge on an
item that is **not** currently winning always raises `VisiblyLoweredError`
(and leaves the ledger unchanged), even when the amount and funds checks
pass — the code forbids every visible decrease on a losing item. -/
theorem C5_losing_item_lowering_rejected (bank : ℕ → ℤ) (st : Auction) (user item : ℕ)
    (amount : ℤ) (prev : ℕ) (w : WinnerResult)
    (hprev : ((alookup item st.itembids).bind fun bids => alookup user bids) = some prev)
    (h1 : 1 ≤ amount) (hlow : amount < (prev : ℤ))
    (hfunds : amount - (prev : ℤ) ≤ bank user)
    (hwin : get_winner st = some w) (hitem : w.item ≠ item) :
    (replace_bid bank st user item amount false).2 = some .visiblyLowered ∧
    (replace_bid bank st user item amount false).1 = st := by
  have hmain := handle_bid_lowering bank st user item amount prev w hprev h1 hlow hfunds hwin
  constructor
  · show (handle_bid bank st user item amount true false).2 = some .visiblyLowered
    rw [hmain, if_pos hitem]
  · show (handle_bid bank st user item amount true false).1 = st
    rw [hmain, if_pos hitem]

set_option maxRecDepth 100000 in
/-- C5 witness: the amended claim applied to user 1 lowering the pledge on
the losing item 1 from 2 to 1 while item 0 is winning. -/
theorem C5_witness :
    (replace_bid (fun _ => (50000 : ℤ)) ⟨[(0, [(0, 5)]), (1, [(1, 2)])], [0, 1]⟩ 1 1 1 false).2 =
      some .visiblyLowered ∧
    (replace_bid (fun _ => (50000 : ℤ)) ⟨[(0, [(0, 5)]), (1, [(1, 2)])], [0, 1]⟩ 1 1 1 false).1 =
      ⟨[(0, [(0, 5)]), (1, [(1, 2)])], [0, 1]⟩ :=
  C5_losing_item_lowering_rejected (fun _ => (50000 : ℤ)) _ 1 1 1 2 ⟨0, 5, 3, [(0, 3)]⟩
    (by decide) (by decide) (by decide) (by decide) (by decide) (by decide)

/-- C6 counterexample: `clear` empties the ledger but leaves the Recency
Index as it was: clearing the reachable single-pledge ledger leaves the
tracker equal to `[0]`, which is neither empty nor equal to the (empty)
set of items with live pledges. -/
theorem C6_counterexample :
    Reachable ⟨[(0, [(0, 1)])], [0]⟩ ∧
    (clear ⟨[(0, [(0, 1)])], [0]⟩).itembids = [] ∧
    (clear ⟨[(0, [(0, 1)])], [0]⟩).tracker = [0] ∧ ([0] : List ℕ) ≠ [] :=
  ⟨reach_single1, rfl, rfl, by decide⟩

/-- C6 (amended): after `clear` there are no live pledges and every
bidder's reserved money is 0, but the Recency Index is left exactly as it
was (it may keep stale items). -/
theorem C6_clear_behavior (st : Auction) (user : ℕ) :
    (clear st).itembids = [] ∧ get_reserved_money (clear st) user = 0 ∧
    (clear st).tracker = st.tracker :=
  ⟨rfl, rfl, rfl⟩

/-- C7: `get_all_bids_ordered` ranks the items exactly by total pledged
amount descending with ties broken by the earlier position in the change
tracker (the sorted list is ordered under `keyLe` and is a permutation of
the ledger), and with two items tied on total the one touched longer ago
(lower tracker index) is the winner returned by `get_winner`. -/
theorem C7_ranking (st : Auction) (hR : Reachable st) :
    (List.Sorted (keyLe st.tracker) (get_all_bids_ordered st) ∧
      List.Perm (get_all_bids_ordered st) st.itembids) ∧
    (∀ i1 b1 i2 b2, st.itembids = [(i1, b1), (i2, b2)] →
      bidsSum b1 = bidsSum b2 → lindex i1 st.tracker < lindex i2 st.tracker →
      (get_winner st).map (fun w => w.item) = some i1) := by
  refine ⟨⟨List.sorted_insertionSort _ _, List.perm_insertionSort _ _⟩, ?_⟩
  intro i1 b1 i2 b2 h hsum hidx
  have hkey : keyLe st.tracker (i1, b1) (i2, b2) := by
    refine Or.inr ⟨?_, le_of_lt hidx⟩
    show -(bidsSum b1 : ℤ) = -(bidsSum b2 : ℤ)
    rw [hsum]
  have hord : get_all_bids_ordered st = [(i1, b1), (i2, b2)] := by
    simp only [get_all_bids_ordered, h, List.insertionSort, List.orderedInsert]
    rw [if_pos hkey]
  obtain ⟨w, hw, hwi, hwT, hwc⟩ := get_winner_fields hord
  rw [hw, Option.map_some', hwi]

set_option maxRecDepth 100000 in
/-- C7 witness: user 0 pledges 3 on item 0, then user 1 pledges 3 on item
1; on the exact tie the item touched longer ago (item 0) wins. -/
theorem C7_witness :
    (get_winner ⟨[(0, [(0, 3)]), (1, [(1, 3)])], [0, 1]⟩).map (fun w => w.item) = some 0 :=
  (C7_ranking ⟨[(0, [(0, 3)]), (1, [(1, 3)])], [0, 1]⟩ reach_pair_3_3).2 0 [(0, 3)] 1 [(1, 3)]
    rfl (by decide) (by decide)

set_option maxRecDepth 100000 in
/-- C8 counterexample: the provisional shares are **not** computed over
exact integers/rationals.  At the reachable ledger behind
`[(0, 7), (1, 18)]` with `total_charge = total_bid = 25`, the code's
double-precision provisional share of user 0 is 8, while the exact
rational value `⌈25·7/25⌉` is 7. -/
theorem C8_counterexample :
    Reachable ⟨[(0, [(0, 7), (1, 18)]), (1, [(2, 24)])], [0, 1]⟩ ∧
    get_all_bids_ordered ⟨[(0, [(0, 7), (1, 18)]), (1, [(2, 24)])], [0, 1]⟩ =
      [(0, [(0, 7), (1, 18)]), (1, [(2, 24)])] ∧
    provisionalOwed 25 25 [(0, 7), (1, 18)] = [(1, 18), (0, 8)] ∧
    exactCeilShare 25 7 25 = 7 ∧ ((8 : ℤ) ≠ 7) :=
  ⟨reach_float_state, by decide, by decide, by decide, by decide⟩

/-- C8 (amended): the provisional share is
`ceil(total_charge * (amount / total_bid))` evaluated in Python's double
precision (which can exceed the exact rational ceiling); it still holds
that in every reachable state with a winner the charge is positive and
every bidder of the winning item provisionally owes at least 1 unit. -/
theorem C8_provisional_share_positive (st : Auction) (wi : ℕ) (wb : List (ℕ × ℕ))
    (rest : List (ℕ × List (ℕ × ℕ))) (hR : Reachable st)
    (h : get_all_bids_ordered st = (wi, wb) :: rest) :
    ∃ w, get_winner st = some w ∧ 1 ≤ w.total_charge ∧
      ∀ q ∈ provisionalOwed w.total_charge w.total_bid wb, 1 ≤ q.2 := by
  have hWF := WF_of_Reachable hR
  have hmem := mem_itembids_of_ordered_head h
  have hb := hWF.1 _ hmem
  have hT : 1 ≤ bidsSum wb := bidsSum_pos hb.1 hb.2
  obtain ⟨w, hw, hwi, hwT, hwc⟩ := get_winner_fields h
  have htc : 1 ≤ w.total_charge := by
    rw [hwc]
    omega
  refine ⟨w, hw, htc, ?_⟩
  intro q hq
  simp only [provisionalOwed] at hq
  rcases List.mem_map.mp hq with ⟨p, hp, hpe⟩
  have hpwb := mem_of_mem_byAmountDesc hp
  have hpa : 1 ≤ p.2 := hb.2 p hpwb
  have hq2 : q.2 = ceilShare w.total_charge.toNat p.2 w.total_bid := by
    rw [← hpe]
  rw [hq2]
  refine ceilShare_pos (by omega) hpa ?_
  rw [hwT]
  exact hT

set_option maxRecDepth 100000 in
/-- C8 witness: the amended claim applied to the single-pledge ledger
(user 0 pledged 10 on item 0). -/
theorem C8_witness :
    ∃ w, get_winner ⟨[(0, [(0, 10)])], [0]⟩ = some w ∧ 1 ≤ w.total_charge ∧
      ∀ q ∈ provisionalOwed w.total_charge w.total_bid [(0, 10)], 1 ≤ q.2 :=
  C8_provisional_share_positive ⟨[(0, [(0, 10)])], [0]⟩ 0 [(0, 10)] [] reach_single10 (by decide)

/-- C9: every mutation that reports an error — `place_bid`, `replace_bid`
(with either guard setting) or `increase_bid` — leaves the ledger and the
change tracker exactly unchanged. -/
theorem C9_atomicity :
    (∀ (bank : ℕ → ℤ) (st : Auction) (user item : ℕ) (amount : ℤ),
      (place_bid bank st user item amount).2 ≠ none →
      (place_bid bank st user item amount).1 = st) ∧
    (∀ (bank : ℕ → ℤ) (st : Auction) (user item : ℕ) (amount : ℤ) (allow : Bool),
      (replace_bid bank st user item amount allow).2 ≠ none →
      (replace_bid bank st user item amount allow).1 = st) ∧
    (∀ (bank : ℕ → ℤ) (st : Auction) (user item : ℕ) (amount : ℤ),
      (increase_bid bank st user item amount).2 ≠ none →
      (increase_bid bank st user item amount).1 = st) := by
  refine ⟨?_, ?_, ?_⟩
  · intro bank st user item amount
    exact handle_bid_error_id bank st user item amount false true
  · intro bank st user item amount allow
    exact handle_bid_error_id bank st user item amount true allow
  · intro bank st user item amount
    exact handle_bid_error_id bank st user item _ true true

/-- C9 witness: a second `place_bid` by the same user on the same item is
rejected with `AlreadyBidError` and the ledger is unchanged. -/
theorem C9_witness :
    (place_bid (fun _ => (50000 : ℤ)) ⟨[(0, [(0, 1)])], [0]⟩ 0 0 5).1 =
      ⟨[(0, [(0, 1)])], [0]⟩ :=
  C9_atomicity.1 (fun _ => (50000 : ℤ)) ⟨[(0, [(0, 1)])], [0]⟩ 0 0 5 (by decide)

/-- C10: in every reachable ledger state all stored pledge amounts are at
least 1, every item with live pledges has a pledged total of at least 1,
and in particular the winning item's `total_bid` — the divisor in
`get_winner`'s allocation step — is never 0. -/
theorem C10_positive_amounts (st : Auction) (hR : Reachable st) :
    (∀ p ∈ st.itembids, ∀ q ∈ p.2, 1 ≤ q.2) ∧
    (∀ p ∈ st.itembids, 1 ≤ bidsSum p.2) ∧
    (∀ wi wb rest, get_all_bids_ordered st = (wi, wb) :: rest → 1 ≤ bidsSum wb) := by
  have hWF := WF_of_Reachable hR
  refine ⟨fun p hp => (hWF.1 p hp).2, fun p hp => bidsSum_pos (hWF.1 p hp).1 (hWF.1 p hp).2, ?_⟩
  intro wi wb rest h
  have hmem := mem_itembids_of_ordered_head h
  exact bidsSum_pos (hWF.1 _ hmem).1 (hWF.1 _ hmem).2

/-- C10 witness: in the reachable single-pledge ledger the winning item's
total is positive. -/
theorem C10_witness : 1 ≤ bidsSum [(0, 10)] :=
  (C10_positive_amounts ⟨[(0, [(0, 10)])], [0]⟩ reach_single10).2.2 0 [(0, 10)] [] (by decide)

end BidCat
